import Mathlib

/-!
Shallow embedding of the per-document version-control engine in `dvcs.py`.

Bytes are modelled as `List Nat`; the repository directory as an association
list from blob file names to byte contents plus an optional metadata record;
the external `xdelta3` patch tool as a record of an availability flag and two
partial pure functions (encode / decode), a failing invocation returning
`none`.  Each CLI invocation constructs a fresh `DVCS` object whose `state`
field is the ledger loaded from disk, exactly as `DVCS.__init__` does.

Integer-valued version arguments coming from the command line are modelled
as `Int` (Python ints), converted after the range check.  The
`created_at` timestamps produced by `now_iso()` are passed in as explicit
string arguments.  `snapshot_interval = 0` would raise `ZeroDivisionError`
in Python; every theorem below assumes a positive interval, matching the
spec's "positive integer".
-/

/-- Raw file contents, one `Nat` per byte. -/
abbrev Bytes := List Nat

/-- The blob files stored in the repository directory, newest write first. -/
abbrev Blobs := List (String × Bytes)

/-- `VersionEntry` in `dvcs.py` (one ledger record). -/
structure VersionEntry where
  version : Nat
  kind : String
  file : String
  message : String
  created_at : String
  base_version : Option Nat := none
deriving Repr, DecidableEq, Inhabited

/-- `RepoState` in `dvcs.py` (the deserialized `metadata.json`). -/
structure RepoState where
  document_type : String
  snapshot_interval : Nat := 5
  versions : List VersionEntry := []
deriving Repr, DecidableEq, Inhabited

/-- The on-disk repository directory: optional ledger file plus blob files. -/
structure Sys where
  meta : Option RepoState
  blobs : Blobs
deriving Repr, DecidableEq, Inhabited

/-- The world an operation touches: the tracked document and the repo dir. -/
structure World where
  fileBytes : Bytes
  sys : Sys
deriving Repr, DecidableEq, Inhabited

/-- The external binary diff tool (`xdelta3`): `avail` models `which("xdelta3")`,
`enc base target` models `xdelta3 -e -s base target`, `dec base delta` models
`xdelta3 -d -s base delta`; `none` models a `CalledProcessError`. -/
structure PatchTool where
  avail : Bool
  enc : Bytes → Bytes → Option Bytes
  dec : Bytes → Bytes → Option Bytes

/-- The in-memory `DVCS` object built by `DVCS.__init__`: constructor
arguments plus the ledger loaded from disk. -/
structure DVCS where
  doc_type : String
  snapshot_interval : Nat
  state : Option RepoState
deriving Repr, DecidableEq, Inhabited

/-- Read a blob file from the repository directory. -/
def lookupBlob (bs : Blobs) (name : String) : Option Bytes :=
  (bs.find? (fun kv => kv.1 == name)).map (fun kv => kv.2)

/-- Write (or overwrite) a blob file in the repository directory. -/
def writeBlob (bs : Blobs) (name : String) (b : Bytes) : Blobs :=
  (name, b) :: bs

/-- One decimal digit as the character Python's `format` would print. -/
def digitChar : Nat → Char
  | 0 => '0' | 1 => '1' | 2 => '2' | 3 => '3' | 4 => '4'
  | 5 => '5' | 6 => '6' | 7 => '7' | 8 => '8' | _ => '9'

/-- Little-endian decimal digits of `n`, structurally recursive on a fuel
bound so that the kernel can evaluate it. -/
def natDigitsAux : Nat → Nat → List Nat
  | 0, _ => []
  | _ + 1, 0 => []
  | fuel + 1, n + 1 => ((n + 1) % 10) :: natDigitsAux fuel ((n + 1) / 10)

/-- Big-endian decimal digit characters of `n` (empty for `0`). -/
def natChars (n : Nat) : List Char :=
  ((natDigitsAux n n).reverse).map digitChar

/-- Python's `f"{n:04d}"`: decimal, left-padded with zeros to width 4. -/
def pad4 (n : Nat) : String :=
  ⟨List.replicate (4 - (natChars n).length) '0' ++ natChars n⟩

/-- `DVCS._version_file`: blob file name for a version. -/
def versionFile (ver : Nat) (snapshot : Bool) : String :=
  "v" ++ pad4 ver ++ (if snapshot then ".snapshot" else ".delta")

/-- Numeric value of a digit character. -/
def digitVal (c : Char) : Nat := c.toNat - 48

/-- Decimal value of a big-endian digit character list. -/
def parseNat (cs : List Char) : Nat :=
  cs.foldl (fun a c => a * 10 + digitVal c) 0

/-- Recover the version number encoded in a blob file name. -/
def fileVersion (s : String) : Nat :=
  parseNat ((s.data.drop 1).takeWhile Char.isDigit)

/-- `self.state.versions[-1].version` (0 for an empty ledger, which the code
never reads: Python would raise `IndexError` there). -/
def lastVersionL (vs : List VersionEntry) : Nat :=
  ((vs.getLast?).map (fun e => e.version)).getD 0

/-- `DVCS._nearest_snapshot_at_or_before`: scan the ledger backwards for the
last snapshot record with version at most `ver`. -/
def nearestSnapshotAtOrBefore (vs : List VersionEntry) (ver : Nat) : Option VersionEntry :=
  vs.reverse.find? (fun e => decide (e.version ≤ ver) && (e.kind == "snapshot"))

/-- `DVCS._nearest_snapshot_before`: last snapshot strictly before `next`. -/
def nearestSnapshotBefore (vs : List VersionEntry) (next : Nat) : Option VersionEntry :=
  vs.reverse.find? (fun e => decide (e.version < next) && (e.kind == "snapshot"))

/-- `DVCS._entry_for`: first ledger record with the given version number. -/
def entryFor (vs : List VersionEntry) (ver : Nat) : Option VersionEntry :=
  vs.find? (fun e => e.version == ver)

/-- Failure modes of `DVCS._reconstruct_bytes` (each a distinct Python
exception). -/
inductive RecErr where
  | outOfRange
  | missingSnapshot
  | missingBlob (file : String)
  | noEntry (v : Nat)
  | decodeFailed (v : Nat)
  | toolUnavailable
deriving Repr, DecidableEq, Inhabited

/-- Failure modes of `DVCS.add`. -/
inductive AddErr where
  | notInitialized
  | noSnapshotBefore
  | missingBaseBlob (file : String)
  | reconstructFailed (e : RecErr)
deriving Repr, DecidableEq, Inhabited

/-- Failure modes of `DVCS.get` / `DVCS.revert`. -/
inductive OpErr where
  | notInitialized
  | recFail (e : RecErr)
deriving Repr, DecidableEq, Inhabited

/-- One iteration of the replay loop in `DVCS._reconstruct_bytes` for
version `v`: a snapshot record replaces the working buffer outright, any
other record is decoded against it (`which` is consulted first; a missing
delta blob surfaces as the same `CalledProcessError` as a decode error). -/
def replayStep (tool : PatchTool) (blobs : Blobs) (vs : List VersionEntry)
    (data : Bytes) (v : Nat) : Except RecErr Bytes :=
  match entryFor vs v with
  | none => .error (.noEntry v)
  | some e =>
    if e.kind == "snapshot" then
      match lookupBlob blobs e.file with
      | none => .error (.missingBlob e.file)
      | some b => .ok b
    else
      if tool.avail then
        match lookupBlob blobs e.file with
        | none => .error (.decodeFailed v)
        | some d =>
          match tool.dec data d with
          | none => .error (.decodeFailed v)
          | some out => .ok out
      else
        .error .toolUnavailable

/-- `DVCS._reconstruct_bytes`: range-check the target, load the nearest
snapshot at or before it, then replay the records up to the target. -/
def reconstructBytes (tool : PatchTool) (blobs : Blobs) (vs : List VersionEntry)
    (target : Int) : Except RecErr Bytes :=
  if target < 1 ∨ target > (lastVersionL vs : Int) then .error .outOfRange
  else
    let t := target.toNat
    match nearestSnapshotAtOrBefore vs t with
    | none => .error .missingSnapshot
    | some snap =>
      match lookupBlob blobs snap.file with
      | none => .error (.missingBlob snap.file)
      | some data =>
        (List.range' (snap.version + 1) (t - snap.version)).foldlM
          (replayStep tool blobs vs) data

/-- `DVCS.__init__`: store the constructor arguments and load the ledger. -/
def mkDVCS (docType : String) (interval : Nat) (s : Sys) : DVCS :=
  ⟨docType, interval, s.meta⟩

/-- `DVCS.init`: a no-op on an initialized repository, otherwise store the
file's bytes as the version-1 snapshot and persist the one-record ledger. -/
def dvcsInit (d : DVCS) (w : World) (msg ts : String) : World :=
  match d.state with
  | some _ => w
  | none =>
    let fname := versionFile 1 true
    let entry : VersionEntry := ⟨1, "snapshot", fname, msg, ts, none⟩
    let st : RepoState := ⟨d.doc_type, d.snapshot_interval, [entry]⟩
    { w with sys := ⟨some st, writeBlob w.sys.blobs fname w.fileBytes⟩ }

/-- `DVCS.add`: snapshot on cadence, else reconstruct the prior version and
attempt a delta, falling back to a snapshot when the tool is absent or its
encode invocation fails. -/
def dvcsAdd (d : DVCS) (tool : PatchTool) (w : World) (msg ts : String) :
    Except AddErr World :=
  match d.state with
  | none => .error .notInitialized
  | some st =>
    let data := w.fileBytes
    let next := lastVersionL st.versions + 1
    if (next - 1) % st.snapshot_interval == 0 then
      let fname := versionFile next true
      let entry : VersionEntry := ⟨next, "snapshot", fname, msg, ts, none⟩
      let st' : RepoState := { st with versions := st.versions ++ [entry] }
      .ok { w with sys := ⟨some st', writeBlob w.sys.blobs fname data⟩ }
    else
      match nearestSnapshotBefore st.versions next with
      | none => .error .noSnapshotBefore
      | some base =>
        match lookupBlob w.sys.blobs base.file with
        | none => .error (.missingBaseBlob base.file)
        | some _baseBytes =>
          match reconstructBytes tool w.sys.blobs st.versions ((next - 1 : Nat) : Int) with
          | .error e => .error (.reconstructFailed e)
          | .ok prior =>
            let fallback : World :=
              let fname := versionFile next true
              let entry : VersionEntry :=
                ⟨next, "snapshot", fname, msg ++ " (fallback snapshot)", ts, none⟩
              let st' : RepoState := { st with versions := st.versions ++ [entry] }
              { w with sys := ⟨some st', writeBlob w.sys.blobs fname data⟩ }
            if tool.avail then
              match tool.enc prior data with
              | some delta =>
                let fname := versionFile next false
                let entry : VersionEntry := ⟨next, "delta", fname, msg, ts, some (next - 1)⟩
                let st' : RepoState := { st with versions := st.versions ++ [entry] }
                .ok { w with sys := ⟨some st', writeBlob w.sys.blobs fname delta⟩ }
              | none => .ok fallback
            else .ok fallback

/-- `DVCS.get`: reconstruct a version and write it to the output path; an
exception leaves the output file untouched. -/
def dvcsGet (d : DVCS) (tool : PatchTool) (blobs : Blobs) (target : Int)
    (outFile : Option Bytes) : Except OpErr Unit × Option Bytes :=
  match d.state with
  | none => (.error .notInitialized, outFile)
  | some st =>
    match reconstructBytes tool blobs st.versions target with
    | .ok b => (.ok (), some b)
    | .error e => (.error (.recFail e), outFile)

/-- `DVCS.revert`: reconstruct a version and write it over the tracked file;
the repository directory is not touched, no record is appended. -/
def dvcsRevert (d : DVCS) (tool : PatchTool) (w : World) (target : Int) :
    Except OpErr World :=
  match d.state with
  | none => .error .notInitialized
  | some st =>
    match reconstructBytes tool w.sys.blobs st.versions target with
    | .ok b => .ok { w with fileBytes := b }
    | .error e => .error (.recFail e)

/-- CLI `init`: build a `DVCS` with the given type and interval, run `init`. -/
def initOp (docType : String) (interval : Nat) (w : World) (msg ts : String) : World :=
  dvcsInit (mkDVCS docType interval w.sys) w msg ts

/-- `add` through a `DVCS` constructed with an arbitrary interval argument. -/
def addOp (tool : PatchTool) (docType : String) (interval : Nat) (w : World)
    (msg ts : String) : Except AddErr World :=
  dvcsAdd (mkDVCS docType interval w.sys) tool w msg ts

/-- CLI `add`: `main` constructs `DVCS(file, type)` with the default
interval 5; the stored interval is what governs the commit policy. -/
def cliAdd (tool : PatchTool) (docType : String) (w : World) (msg ts : String) :
    Except AddErr World :=
  addOp tool docType 5 w msg ts

/-- CLI `get` via `_open_inferred`: fails distinctly if uninitialized. -/
def getOp (tool : PatchTool) (s : Sys) (target : Int) (outFile : Option Bytes) :
    Except OpErr Unit × Option Bytes :=
  match s.meta with
  | none => (.error .notInitialized, outFile)
  | some st => dvcsGet ⟨st.document_type, st.snapshot_interval, s.meta⟩ tool s.blobs target outFile

/-- CLI `revert` via `_open_inferred`. -/
def revertOp (tool : PatchTool) (w : World) (target : Int) : Except OpErr World :=
  match w.sys.meta with
  | none => .error .notInitialized
  | some st => dvcsRevert ⟨st.document_type, st.snapshot_interval, w.sys.meta⟩ tool w target

/-- Overwrite the tracked document (the user editing the file between
commits). -/
def setFile (w : World) (b : Bytes) : World := { w with fileBytes := b }

/-- A sequence of CLI `add` invocations, each preceded by the user saving new
contents into the tracked file. -/
def runAdds (tool : PatchTool) (docType : String) (w : World)
    (l : List (Bytes × String × String)) : Except AddErr World :=
  l.foldlM (fun w x => cliAdd tool docType (setFile w x.1) x.2.1 x.2.2) w

/-- A full history: CLI `init` on a fresh directory, then the given `add`s. -/
def runTrace (tool : PatchTool) (docType : String) (interval : Nat) (b0 : Bytes)
    (m0 t0 : String) (adds : List (Bytes × String × String)) : Except AddErr World :=
  runAdds tool docType (initOp docType interval ⟨b0, ⟨none, []⟩⟩ m0 t0) adds

/-- The bytes committed at each version of a trace (version `v` at index
`v - 1`). -/
def allBytes (b0 : Bytes) (adds : List (Bytes × String × String)) : List Bytes :=
  b0 :: adds.map (fun x => x.1)

/-- Bytes committed at version `v` given the per-version list. -/
def committedAt (committed : List Bytes) (v : Nat) : Bytes :=
  committed.getD (v - 1) []

/-- Structural well-formedness of the record at 0-based index `i`:
version numbers are contiguous from 1 and a delta's `base_version` is the
preceding version. -/
def entryWF (i : Nat) (e : VersionEntry) : Bool :=
  (e.version == i + 1) &&
  ((e.kind == "snapshot") || ((e.kind == "delta") && (e.base_version == some i)))

/-- `entryWF` for every record of a ledger segment starting at index `i`. -/
def wfChain : Nat → List VersionEntry → Bool
  | _, [] => true
  | i, e :: r => entryWF i e && wfChain (i + 1) r

/-- The ledger invariant of the spec: non-empty, contiguous versions from 1,
first record a snapshot, delta records pointing at their predecessor. -/
def wfLedger (vs : List VersionEntry) : Bool :=
  (match vs with | [] => false | e :: _ => e.kind == "snapshot") && wfChain 0 vs

/-- Every record's blob file name is the one `_version_file` derives from its
version and kind. -/
def ledgerFiles (vs : List VersionEntry) : Bool :=
  vs.all (fun e => e.file == versionFile e.version (e.kind == "snapshot"))

/-- Every record's blob file is present in the repository directory. -/
def blobsPresent (blobs : Blobs) (vs : List VersionEntry) : Bool :=
  vs.all (fun e => (lookupBlob blobs e.file).isSome)

/-- The patch tool round-trips: whatever `enc` produced, `dec` undoes against
the same base. -/
def ToolOK (tool : PatchTool) : Prop :=
  ∀ base target delta, tool.enc base target = some delta →
    tool.dec base delta = some target

/-- The reachable-state invariant tying a repository directory to the bytes
committed at each version: ledger well-formed, blob names canonical and
present, and every version reconstructs to its committed bytes. -/
def TraceInv (tool : PatchTool) (s : Sys) (committed : List Bytes) : Prop :=
  ∃ st, s.meta = some st ∧
    wfLedger st.versions = true ∧
    ledgerFiles st.versions = true ∧
    blobsPresent s.blobs st.versions = true ∧
    st.versions.length = committed.length ∧
    0 < st.snapshot_interval ∧
    ∀ v, 1 ≤ v → v ≤ committed.length →
      reconstructBytes tool s.blobs st.versions (v : Int) = .ok (committedAt committed v)

/-- The record kind the cadence dictates at 0-based index `i` when every
delta encode succeeds: snapshot exactly when `i % k = 0`. -/
def expectedKind (k i : Nat) : String :=
  if i % k == 0 then "snapshot" else "delta"

/-- Kind of record `i` (0-based) when every delta encode succeeds: snapshot
exactly on the cadence `i % k = 0`. -/
def kindsPattern (k : Nat) : Nat → List VersionEntry → Bool
  | _, [] => true
  | i, e :: r => (e.kind == expectedKind k i) && kindsPattern k (i + 1) r

/-- JSON values as far as `metadata.json` needs them.  Numeric fields are
modelled at the type the writer `RepoState.save` emits (natural numbers). -/
inductive Json where
  | null
  | num (n : Nat)
  | str (s : String)
  | arr (xs : List Json)
  | obj (kvs : List (String × Json))

/-- Python dict lookup on parsed JSON (with duplicate keys, `json.loads`
keeps the last occurrence). -/
def jLookup (kvs : List (String × Json)) (k : String) : Option Json :=
  (kvs.reverse.find? (fun kv => kv.1 == k)).map (fun kv => kv.2)

/-- The result of `RepoState.load`: no metadata file, a deserialization
exception (`json.loads` error, `KeyError`, `TypeError`), or a parsed state. -/
inductive LoadResult where
  | absent
  | corrupt
  | ok (st : RepoState)
deriving Repr, DecidableEq, Inhabited

/-- Keyword arguments `VersionEntry(**v)` accepts. -/
def entryKeys : List String :=
  ["version", "kind", "file", "message", "created_at", "base_version"]

/-- Keyword arguments `VersionEntry(**v)` requires. -/
def requiredEntryKeys : List String :=
  ["version", "kind", "file", "message", "created_at"]

/-- One element of `data["versions"]` through `VersionEntry(**v)`: the keys
must be exactly the accepted keyword arguments (else `TypeError`), with
`base_version` optional. -/
def parseEntry : Json → Option VersionEntry
  | .obj kvs =>
    if (kvs.all (fun kv => entryKeys.contains kv.1))
        && (requiredEntryKeys.all (fun k => (jLookup kvs k).isSome)) then
      match jLookup kvs "version", jLookup kvs "kind", jLookup kvs "file",
          jLookup kvs "message", jLookup kvs "created_at" with
      | some (.num v), some (.str kd), some (.str f), some (.str m), some (.str c) =>
        match jLookup kvs "base_version" with
        | none => some ⟨v, kd, f, m, c, none⟩
        | some .null => some ⟨v, kd, f, m, c, none⟩
        | some (.num b) => some ⟨v, kd, f, m, c, some b⟩
        | some _ => none
      | _, _, _, _, _ => none
    else none
  | _ => none

/-- `RepoState.load`: absent exactly when no `metadata.json` exists;
otherwise deserialize `document_type`, `versions` and the optional
`snapshot_interval` (default 5), any failure modelling the raised
exception.  Note the loaded `document_type` string is not checked against
the recognized values. -/
def loadMeta : Option Json → LoadResult
  | none => .absent
  | some (.obj kvs) =>
    match jLookup kvs "document_type", jLookup kvs "versions" with
    | some (.str dt), some (.arr xs) =>
      match xs.mapM parseEntry with
      | some vs =>
        match jLookup kvs "snapshot_interval" with
        | none => .ok ⟨dt, 5, vs⟩
        | some (.num k) => .ok ⟨dt, k, vs⟩
        | some _ => .corrupt
      | none => .corrupt
    | _, _ => .corrupt
  | some _ => .corrupt

/-- `dataclasses.asdict` of one record, as `RepoState.save` serializes it. -/
def entryJson (e : VersionEntry) : Json :=
  .obj [("version", .num e.version), ("kind", .str e.kind), ("file", .str e.file),
    ("message", .str e.message), ("created_at", .str e.created_at),
    ("base_version", match e.base_version with | none => .null | some b => .num b)]

/-- `RepoState.save`: the JSON document written to `metadata.json`. -/
def saveJson (st : RepoState) : Json :=
  .obj [("document_type", .str st.document_type),
    ("snapshot_interval", .num st.snapshot_interval),
    ("versions", .arr (st.versions.map entryJson))]


/-- A correct patch tool whose deltas are full copies of the target. -/
def okTool : PatchTool := ⟨true, fun _ t => some t, fun _ d => some d⟩

/-- The patch tool when `which("xdelta3")` finds nothing. -/
def noTool : PatchTool := ⟨false, fun _ _ => none, fun _ _ => none⟩

/-- An available tool whose encode invocation always exits with an error. -/
def failEncTool : PatchTool := ⟨true, fun _ _ => none, fun _ d => some d⟩

/-- A freshly initialized one-version repository over content `[5]`. -/
def sampleInitWorld : World :=
  ⟨[5], ⟨some ⟨"docx", 5, [⟨1, "snapshot", versionFile 1 true, "m1", "t1", none⟩]⟩,
    [(versionFile 1 true, [5])]⟩⟩

/-- A two-version repository whose second record is a delta. -/
def sampleDeltaWorld : World :=
  ⟨[1], ⟨some ⟨"docx", 5,
    [⟨1, "snapshot", versionFile 1 true, "m1", "t1", none⟩,
     ⟨2, "delta", versionFile 2 false, "m2", "t2", some 1⟩]⟩,
    [(versionFile 1 true, [0]), (versionFile 2 false, [7])]⟩⟩

/-- A four-version repository (snapshot cadence 2: snapshots at 1 and 3). -/
def sample4World : World :=
  ⟨[4], ⟨some ⟨"pdf", 2,
    [⟨1, "snapshot", versionFile 1 true, "m1", "t1", none⟩,
     ⟨2, "delta", versionFile 2 false, "m2", "t2", some 1⟩,
     ⟨3, "snapshot", versionFile 3 true, "m3", "t3", none⟩,
     ⟨4, "delta", versionFile 4 false, "m4", "t4", some 3⟩]⟩,
    [(versionFile 1 true, [1]), (versionFile 2 false, [2]),
     (versionFile 3 true, [3]), (versionFile 4 false, [4])]⟩⟩


theorem digitVal_digitChar {d : Nat} (h : d < 10) : digitVal (digitChar d) = d := by
  interval_cases d <;> rfl

theorem isDigit_digitChar {d : Nat} (h : d < 10) : (digitChar d).isDigit = true := by
  interval_cases d <;> rfl

theorem foldl_digitChars (ds : List Nat) (h : ∀ d ∈ ds, d < 10) (a : Nat) :
    (ds.map digitChar).foldl (fun a c => a * 10 + digitVal c) a
      = a * 10 ^ ds.length + Nat.ofDigits 10 ds.reverse := by
  induction ds generalizing a with
  | nil => simp [Nat.ofDigits]
  | cons d ds ih =>
    have hd : d < 10 := h d (by simp)
    have hrest : ∀ x ∈ ds, x < 10 := fun x hx => h x (by simp [hx])
    simp only [List.map_cons, List.foldl_cons, List.reverse_cons, List.length_cons]
    rw [ih hrest, digitVal_digitChar hd, Nat.ofDigits_append]
    simp [Nat.ofDigits_singleton]
    ring

theorem natDigitsAux_eq : ∀ fuel n, n ≤ fuel → natDigitsAux fuel n = Nat.digits 10 n := by
  intro fuel
  induction fuel with
  | zero =>
    intro n hn
    interval_cases n
    simp [natDigitsAux]
  | succ fuel ih =>
    intro n hn
    cases n with
    | zero => simp [natDigitsAux]
    | succ n =>
      rw [natDigitsAux, ih ((n + 1) / 10) (by
        have := Nat.div_lt_self (Nat.succ_pos n) (by norm_num : 1 < 10)
        omega)]
      exact (Nat.digits_def' (by norm_num : 1 < 10) (Nat.succ_pos n)).symm

theorem natChars_eq (n : Nat) :
    natChars n = ((Nat.digits 10 n).reverse).map digitChar := by
  rw [natChars, natDigitsAux_eq n n (le_refl n)]

theorem digits_natChars {n : Nat} {c : Char} (hc : c ∈ natChars n) : c.isDigit = true := by
  rw [natChars_eq] at hc
  simp only [List.mem_map, List.mem_reverse] at hc
  obtain ⟨d, hd, rfl⟩ := hc
  exact isDigit_digitChar (Nat.digits_lt_base (by norm_num) hd)

theorem parseNat_replicate_zero (k : Nat) (cs : List Char) :
    parseNat (List.replicate k '0' ++ cs) = parseNat cs := by
  induction k with
  | zero => simp
  | succ k ih =>
    simpa [parseNat, List.replicate_succ, digitVal] using ih

theorem parseNat_natChars (n : Nat) : parseNat (natChars n) = n := by
  have h : ∀ d ∈ (Nat.digits 10 n).reverse, d < 10 := by
    intro d hd
    exact Nat.digits_lt_base (by norm_num) (List.mem_reverse.mp hd)
  have := foldl_digitChars ((Nat.digits 10 n).reverse) h 0
  simpa [parseNat, natChars_eq, Nat.ofDigits_digits] using this

theorem takeWhile_append_of_all {p : Char → Bool} {l₁ l₂ : List Char}
    (h : ∀ c ∈ l₁, p c = true) :
    (l₁ ++ l₂).takeWhile p = l₁ ++ l₂.takeWhile p := by
  induction l₁ with
  | nil => simp
  | cons c l ih =>
    have hc : p c = true := h c (by simp)
    simp [List.takeWhile_cons, hc, ih (fun x hx => h x (by simp [hx]))]

theorem data_versionFile (v : Nat) (s : Bool) :
    (versionFile v s).data
      = 'v' :: ((List.replicate (4 - (natChars v).length) '0' ++ natChars v)
          ++ (if s then ".snapshot" else ".delta").data) := by
  cases s <;> simp [versionFile, pad4, String.data_append]

theorem fileVersion_versionFile (v : Nat) (s : Bool) :
    fileVersion (versionFile v s) = v := by
  have hsuffix : (if s then ".snapshot" else ".delta").data.takeWhile Char.isDigit = [] := by
    cases s <;> rfl
  have hall : ∀ c ∈ List.replicate (4 - (natChars v).length) '0' ++ natChars v,
      c.isDigit = true := by
    intro c hc
    rcases List.mem_append.mp hc with h | h
    · rw [List.eq_of_mem_replicate h]; rfl
    · exact digits_natChars h
  rw [fileVersion, data_versionFile, List.drop_one, List.tail_cons,
    takeWhile_append_of_all hall, hsuffix, List.append_nil,
    parseNat_replicate_zero, parseNat_natChars]

theorem wfChain_append (i : Nat) (l : List VersionEntry) (e : VersionEntry) :
    wfChain i (l ++ [e]) = (wfChain i l && entryWF (i + l.length) e) := by
  induction l generalizing i with
  | nil => simp [wfChain]
  | cons x l ih =>
    simp [wfChain, ih (i + 1), Bool.and_assoc, Nat.add_assoc, Nat.add_comm 1 l.length]

theorem wfChain_mem_version {i : Nat} {l : List VersionEntry} {e : VersionEntry}
    (hw : wfChain i l = true) (he : e ∈ l) :
    i + 1 ≤ e.version ∧ e.version ≤ i + l.length := by
  induction l generalizing i with
  | nil => simp at he
  | cons x l ih =>
    simp only [wfChain, Bool.and_eq_true] at hw
    rcases List.mem_cons.mp he with rfl | he'
    · have : e.version = i + 1 := by
        have := hw.1
        simp only [entryWF, Bool.and_eq_true, beq_iff_eq] at this
        exact this.1
      simp only [this, List.length_cons]
      omega
    · have := ih hw.2 he'
      constructor <;> [omega; (simp only [List.length_cons]; omega)]

theorem wfChain_getElem {i : Nat} {l : List VersionEntry}
    (hw : wfChain i l = true) :
    ∀ j (h : j < l.length), (l[j]).version = i + j + 1 := by
  induction l generalizing i with
  | nil => intro j h; simp at h
  | cons x l ih =>
    intro j h
    simp only [wfChain, Bool.and_eq_true] at hw
    cases j with
    | zero =>
      have := hw.1
      simp only [entryWF, Bool.and_eq_true, beq_iff_eq] at this
      simpa using this.1
    | succ j =>
      have := ih hw.2 j (by simpa using Nat.lt_of_succ_lt_succ h)
      simpa [this] using by omega

theorem lastVersionL_of_wfChain {l : List VersionEntry}
    (hw : wfChain 0 l = true) (hne : l ≠ []) : lastVersionL l = l.length := by
  have hlen : 0 < l.length := List.length_pos.mpr hne
  have hbound : l.length - 1 < l.length := by omega
  have hgl : l.getLast? = l[l.length - 1]? := List.getLast?_eq_getElem? l
  have hix : l[l.length - 1]? = some l[l.length - 1] := List.getElem?_eq_getElem hbound
  have hv := wfChain_getElem hw (l.length - 1) hbound
  rw [lastVersionL, hgl, hix]
  simp only [Option.map_some', Option.getD_some, hv]
  omega

theorem entryFor_of_wfChain {i : Nat} {l : List VersionEntry} {w : Nat}
    (hw : wfChain i l = true) (h1 : i + 1 ≤ w) (h2 : w ≤ i + l.length) :
    ∃ e, List.find? (fun e => e.version == w) l = some e ∧ e.version = w := by
  induction l generalizing i with
  | nil => simp at h2; omega
  | cons x l ih =>
    simp only [wfChain, Bool.and_eq_true] at hw
    have hx : x.version = i + 1 := by
      have := hw.1
      simp only [entryWF, Bool.and_eq_true, beq_iff_eq] at this
      exact this.1
    by_cases hcase : w = i + 1
    · refine ⟨x, ?_, by omega⟩
      rw [List.find?_cons_of_pos]
      simp [hx, hcase]
    · have hfind : (x.version == w) = false := by simp [hx]; omega
      obtain ⟨e, he, hev⟩ := ih (i := i + 1) hw.2 (by omega)
        (by simp only [List.length_cons] at h2; omega)
      exact ⟨e, by rw [List.find?_cons_of_neg _ (by simp [hfind])]; exact he, hev⟩

theorem entryFor_eq_some_of_wf {l : List VersionEntry} {w : Nat}
    (hw : wfChain 0 l = true) (h1 : 1 ≤ w) (h2 : w ≤ l.length) :
    ∃ e, entryFor l w = some e ∧ e.version = w := by
  simpa [entryFor] using entryFor_of_wfChain hw (by omega) (by omega)

theorem entryFor_none_of_wf {l : List VersionEntry} {w : Nat}
    (hw : wfChain 0 l = true) (h : l.length < w) :
    entryFor l w = none := by
  rw [entryFor, List.find?_eq_none]
  intro e he
  have := wfChain_mem_version hw he
  simp only [beq_iff_eq]
  omega

theorem wfLedger_head {vs : List VersionEntry} (hw : wfLedger vs = true) :
    ∃ e r, vs = e :: r ∧ e.kind = "snapshot" ∧ e.version = 1 := by
  cases vs with
  | nil => simp [wfLedger] at hw
  | cons e r =>
    simp only [wfLedger, Bool.and_eq_true, beq_iff_eq] at hw
    refine ⟨e, r, rfl, hw.1, ?_⟩
    have := hw.2
    simp only [wfChain, Bool.and_eq_true, entryWF, beq_iff_eq] at this
    simpa using this.1.1

theorem wfLedger_chain {vs : List VersionEntry} (hw : wfLedger vs = true) :
    wfChain 0 vs = true := by
  cases vs with
  | nil => simp [wfLedger] at hw
  | cons e r =>
    simp only [wfLedger, Bool.and_eq_true] at hw
    exact hw.2

theorem nearestAtOrBefore_of_wf {vs : List VersionEntry} {t : Nat}
    (hw : wfLedger vs = true) (ht : 1 ≤ t) :
    ∃ snap, nearestSnapshotAtOrBefore vs t = some snap ∧ snap ∈ vs ∧
      snap.kind = "snapshot" ∧ 1 ≤ snap.version ∧ snap.version ≤ t ∧
      snap.version ≤ vs.length := by
  obtain ⟨e, r, rfl, hk, hv⟩ := wfLedger_head hw
  have hchain := wfLedger_chain hw
  have hsome : (nearestSnapshotAtOrBefore (e :: r) t).isSome = true := by
    rw [nearestSnapshotAtOrBefore, List.find?_isSome]
    exact ⟨e, by simp, by simp [hv, hk, ht]⟩
  obtain ⟨snap, hsnap⟩ := Option.isSome_iff_exists.mp hsome
  have hfound := List.find?_some hsnap
  have hmem : snap ∈ e :: r := List.mem_reverse.mp (List.mem_of_find?_eq_some hsnap)
  simp only [Bool.and_eq_true, decide_eq_true_eq, beq_iff_eq] at hfound
  have hbounds := wfChain_mem_version hchain hmem
  exact ⟨snap, hsnap, hmem, hfound.2, by omega, hfound.1, by simpa using hbounds.2⟩

theorem find?_congr_mem {α : Type} {p q : α → Bool} {l : List α}
    (h : ∀ x ∈ l, p x = q x) : l.find? p = l.find? q := by
  induction l with
  | nil => rfl
  | cons x l ih =>
    by_cases hx : p x = true
    · rw [List.find?_cons_of_pos _ hx, List.find?_cons_of_pos _ (by rw [← h x (by simp)]; exact hx)]
    · rw [List.find?_cons_of_neg _ hx,
        List.find?_cons_of_neg _ (by rw [← h x (by simp)]; exact hx),
        ih (fun a ha => h a (by simp [ha]))]

theorem entryFor_append_old {vs : List VersionEntry} {e' : VersionEntry} {w : Nat}
    {e : VersionEntry} (h : entryFor vs w = some e) :
    entryFor (vs ++ [e']) w = some e := by
  rw [entryFor, List.find?_append]
  rw [entryFor] at h
  simp [h]

theorem entryFor_append_new {vs : List VersionEntry} {e' : VersionEntry}
    (hw : wfChain 0 vs = true) (hv : e'.version = vs.length + 1) :
    entryFor (vs ++ [e']) (vs.length + 1) = some e' := by
  rw [entryFor, List.find?_append]
  have hnone : entryFor vs (vs.length + 1) = none :=
    entryFor_none_of_wf hw (by omega)
  rw [entryFor] at hnone
  simp [hnone, List.find?_cons, hv]

theorem lookupBlob_cons_ne {bs : Blobs} {n name : String} {b : Bytes}
    (h : name ≠ n) : lookupBlob ((n, b) :: bs) name = lookupBlob bs name := by
  rw [lookupBlob, lookupBlob, List.find?_cons_of_neg]
  simp [Ne.symm h]

theorem lookupBlob_cons_self (bs : Blobs) (n : String) (b : Bytes) :
    lookupBlob ((n, b) :: bs) n = some b := by
  rw [lookupBlob, List.find?_cons_of_pos] <;> simp

theorem lookupBlob_cons_isSome {bs : Blobs} {f : String} (n : String) (b : Bytes)
    (h : (lookupBlob bs f).isSome = true) :
    (lookupBlob ((n, b) :: bs) f).isSome = true := by
  by_cases hn : f = n
  · subst hn; rw [lookupBlob_cons_self]; rfl
  · rwa [lookupBlob_cons_ne hn]

theorem blobsPresent_cons {bs : Blobs} {vs : List VersionEntry} {n : String} {b : Bytes}
    (h : blobsPresent bs vs = true) : blobsPresent ((n, b) :: bs) vs = true := by
  rw [blobsPresent, List.all_eq_true] at h ⊢
  exact fun e he => lookupBlob_cons_isSome n b (h e he)

theorem ledgerFiles_mem {vs : List VersionEntry} {e : VersionEntry}
    (hf : ledgerFiles vs = true) (he : e ∈ vs) :
    e.file = versionFile e.version (e.kind == "snapshot") := by
  rw [ledgerFiles, List.all_eq_true] at hf
  exact beq_iff_eq.mp (hf e he)

theorem foldlM_congr_except {ε β α : Type} {f g : β → α → Except ε β} {l : List α}
    (h : ∀ a ∈ l, ∀ d, f d a = g d a) (b : β) :
    l.foldlM f b = l.foldlM g b := by
  induction l generalizing b with
  | nil => rfl
  | cons x l ih =>
    rw [List.foldlM_cons, List.foldlM_cons, h x (by simp)]
    cases g b x with
    | error e => rfl
    | ok b' => exact ih (fun a ha d => h a (by simp [ha]) d) b'

theorem replayStep_preserved {tool : PatchTool} {blobs : Blobs} {vs : List VersionEntry}
    {e' : VersionEntry} {newName : String} {nb : Bytes} {w : Nat}
    (hw : wfChain 0 vs = true) (hf : ledgerFiles vs = true)
    (hnew : fileVersion newName = vs.length + 1)
    (h1 : 1 ≤ w) (h2 : w ≤ vs.length) (d : Bytes) :
    replayStep tool ((newName, nb) :: blobs) (vs ++ [e']) d w
      = replayStep tool blobs vs d w := by
  obtain ⟨ew, hew, hewv⟩ := entryFor_eq_some_of_wf hw h1 h2
  have hmem : ew ∈ vs := List.mem_of_find?_eq_some hew
  have hfile : ew.file = versionFile ew.version (ew.kind == "snapshot") :=
    ledgerFiles_mem hf hmem
  have hne : ew.file ≠ newName := by
    intro hcontra
    have : fileVersion ew.file = ew.version := by
      rw [hfile, fileVersion_versionFile]
    rw [hcontra, hnew] at this
    omega
  have hlook : lookupBlob ((newName, nb) :: blobs) ew.file = lookupBlob blobs ew.file :=
    lookupBlob_cons_ne hne
  rw [replayStep, replayStep, entryFor_append_old hew, hew]
  dsimp only
  rw [hlook]

theorem lastVersionL_append (vs : List VersionEntry) (e : VersionEntry) :
    lastVersionL (vs ++ [e]) = e.version := by
  simp [lastVersionL, List.getLast?_concat]

theorem nearest_append_skip {vs : List VersionEntry} {e' : VersionEntry} {t : Nat}
    (h : ¬(e'.version ≤ t ∧ e'.kind = "snapshot")) :
    nearestSnapshotAtOrBefore (vs ++ [e']) t = nearestSnapshotAtOrBefore vs t := by
  rw [nearestSnapshotAtOrBefore, nearestSnapshotAtOrBefore, List.reverse_append]
  simp only [List.reverse_cons, List.reverse_nil, List.nil_append, List.singleton_append]
  rw [List.find?_cons_of_neg]
  simp only [Bool.and_eq_true, decide_eq_true_eq, beq_iff_eq]
  exact h

theorem nearest_append_self {vs : List VersionEntry} {e' : VersionEntry} {t : Nat}
    (h1 : e'.version ≤ t) (h2 : e'.kind = "snapshot") :
    nearestSnapshotAtOrBefore (vs ++ [e']) t = some e' := by
  rw [nearestSnapshotAtOrBefore, List.reverse_append]
  simp only [List.reverse_cons, List.reverse_nil, List.nil_append, List.singleton_append]
  rw [List.find?_cons_of_pos]
  simp [h1, h2]

theorem nearest_shrink {vs : List VersionEntry} {n : Nat}
    (hw : wfChain 0 vs = true) (hn : vs.length ≤ n) :
    nearestSnapshotAtOrBefore vs (n + 1) = nearestSnapshotAtOrBefore vs n := by
  rw [nearestSnapshotAtOrBefore, nearestSnapshotAtOrBefore]
  apply find?_congr_mem
  intro e he
  have := wfChain_mem_version hw (List.mem_reverse.mp he)
  have hd : decide (e.version ≤ n + 1) = decide (e.version ≤ n) :=
    decide_eq_decide.mpr (by omega)
  rw [hd]

theorem nearestBefore_eq_atOrBefore (vs : List VersionEntry) (n : Nat) :
    nearestSnapshotBefore vs (n + 1) = nearestSnapshotAtOrBefore vs n := by
  rw [nearestSnapshotBefore, nearestSnapshotAtOrBefore]
  apply find?_congr_mem
  intro e _
  simp [Nat.lt_succ_iff]

theorem wfLedger_ne_nil {vs : List VersionEntry} (hw : wfLedger vs = true) : vs ≠ [] := by
  obtain ⟨e, r, rfl, _, _⟩ := wfLedger_head hw
  simp

theorem wfLedger_length_pos {vs : List VersionEntry} (hw : wfLedger vs = true) :
    1 ≤ vs.length := by
  obtain ⟨e, r, rfl, _, _⟩ := wfLedger_head hw
  simp

theorem lastVersionL_of_wf {vs : List VersionEntry} (hw : wfLedger vs = true) :
    lastVersionL vs = vs.length :=
  lastVersionL_of_wfChain (wfLedger_chain hw) (wfLedger_ne_nil hw)

theorem wfLedger_append {vs : List VersionEntry} {e : VersionEntry}
    (hw : wfLedger vs = true) (he : entryWF vs.length e = true) :
    wfLedger (vs ++ [e]) = true := by
  obtain ⟨x, r, rfl, hk, _⟩ := wfLedger_head hw
  have hchain := wfLedger_chain hw
  simp only [wfLedger, List.cons_append, Bool.and_eq_true, beq_iff_eq]
  refine ⟨hk, ?_⟩
  rw [← List.cons_append, wfChain_append]
  simp only [hchain, Bool.true_and]
  simpa using he

theorem ledgerFiles_append {vs : List VersionEntry} {e : VersionEntry}
    (hf : ledgerFiles vs = true)
    (he : e.file = versionFile e.version (e.kind == "snapshot")) :
    ledgerFiles (vs ++ [e]) = true := by
  simp only [ledgerFiles, List.all_append, Bool.and_eq_true] at *
  exact ⟨hf, by simp [he]⟩

theorem blobsPresent_append {blobs : Blobs} {vs : List VersionEntry} {e : VersionEntry}
    (hp : blobsPresent blobs vs = true)
    (he : (lookupBlob blobs e.file).isSome = true) :
    blobsPresent blobs (vs ++ [e]) = true := by
  simp only [blobsPresent, List.all_append, Bool.and_eq_true] at *
  exact ⟨hp, by simp [he]⟩

theorem committedAt_append_lt {c : List Bytes} {b : Bytes} {v : Nat}
    (h1 : 1 ≤ v) (h2 : v ≤ c.length) :
    committedAt (c ++ [b]) v = committedAt c v := by
  rw [committedAt, committedAt, List.getD_append]
  omega

theorem committedAt_append_last (c : List Bytes) (b : Bytes) :
    committedAt (c ++ [b]) (c.length + 1) = b := by
  rw [committedAt, Nat.add_sub_cancel, List.getD_eq_getElem?_getD,
    List.getElem?_concat_length]
  rfl

theorem reconstruct_preserved {tool : PatchTool} {blobs : Blobs} {vs : List VersionEntry}
    {e' : VersionEntry} {newName : String} {nb : Bytes}
    (hw : wfLedger vs = true) (hf : ledgerFiles vs = true)
    (hv' : vs.length < e'.version)
    (hnew : fileVersion newName = vs.length + 1)
    {v : Nat} (h1 : 1 ≤ v) (h2 : v ≤ vs.length) :
    reconstructBytes tool ((newName, nb) :: blobs) (vs ++ [e']) ((v : Nat) : Int)
      = reconstructBytes tool blobs vs ((v : Nat) : Int) := by
  have hchain := wfLedger_chain hw
  have hlast : lastVersionL vs = vs.length := lastVersionL_of_wf hw
  have hlast' : lastVersionL (vs ++ [e']) = e'.version := lastVersionL_append vs e'
  obtain ⟨snap, hsnap, hmem, hkind, hge1, hlev, hlenb⟩ := nearestAtOrBefore_of_wf hw h1
  have hnearA : nearestSnapshotAtOrBefore (vs ++ [e']) v = some snap := by
    rw [nearest_append_skip, hsnap]
    intro hcontra
    omega
  have hfileeq := ledgerFiles_mem hf hmem
  have hnesnap : snap.file ≠ newName := by
    intro hcontra
    have : fileVersion snap.file = snap.version := by
      rw [hfileeq, fileVersion_versionFile]
    rw [hcontra, hnew] at this
    omega
  rw [reconstructBytes, reconstructBytes, hlast, hlast',
    if_neg (by omega), if_neg (by omega)]
  simp only [Int.toNat_natCast]
  rw [hnearA, hsnap]
  dsimp only
  rw [lookupBlob_cons_ne hnesnap]
  cases hlk : lookupBlob blobs snap.file with
  | none => rfl
  | some d0 =>
    dsimp only
    apply foldlM_congr_except
    intro a ha d
    have hb := List.mem_range'_1.mp ha
    exact replayStep_preserved hchain hf hnew (by omega) (by omega) d

theorem reconstruct_last_snapshot {tool : PatchTool} {blobs : Blobs}
    {vs : List VersionEntry} {e : VersionEntry} {b : Bytes}
    (hv : e.version = vs.length + 1) (hk : e.kind = "snapshot")
    (hb : lookupBlob blobs e.file = some b) :
    reconstructBytes tool blobs (vs ++ [e]) ((vs.length + 1 : Nat) : Int) = .ok b := by
  have hlast' : lastVersionL (vs ++ [e]) = e.version := lastVersionL_append vs e
  rw [reconstructBytes, hlast', hv, if_neg (by push_cast; omega)]
  simp only [Int.toNat_natCast]
  rw [nearest_append_self (by omega) hk]
  dsimp only
  rw [hb, hv]
  simp only [Nat.add_sub_cancel, Nat.sub_self, List.range', List.foldlM_nil]
  rfl

theorem reconstruct_append_delta {tool : PatchTool} {blobs : Blobs}
    {vs : List VersionEntry} {e : VersionEntry} {dl prior target : Bytes}
    (hw : wfLedger vs = true) (hf : ledgerFiles vs = true)
    (hv : e.version = vs.length + 1) (hk : e.kind = "delta")
    (hnew : fileVersion e.file = vs.length + 1)
    (havail : tool.avail = true)
    (hprior : reconstructBytes tool blobs vs ((vs.length : Nat) : Int) = .ok prior)
    (hdec : tool.dec prior dl = some target) :
    reconstructBytes tool ((e.file, dl) :: blobs) (vs ++ [e])
      ((vs.length + 1 : Nat) : Int) = .ok target := by
  have hchain := wfLedger_chain hw
  have hn1 : 1 ≤ vs.length := wfLedger_length_pos hw
  have hlast : lastVersionL vs = vs.length := lastVersionL_of_wf hw
  rw [reconstructBytes, hlast, if_neg (by omega)] at hprior
  simp only [Int.toNat_natCast] at hprior
  cases hns : nearestSnapshotAtOrBefore vs vs.length with
  | none => rw [hns] at hprior; exact absurd hprior (by simp)
  | some snap =>
    rw [hns] at hprior
    dsimp only at hprior
    cases hlk : lookupBlob blobs snap.file with
    | none => rw [hlk] at hprior; exact absurd hprior (by simp)
    | some d0 =>
      rw [hlk] at hprior
      dsimp only at hprior
      have hmemsnap : snap ∈ vs :=
        List.mem_reverse.mp (List.mem_of_find?_eq_some hns)
      have hfound := List.find?_some hns
      simp only [Bool.and_eq_true, decide_eq_true_eq, beq_iff_eq] at hfound
      have hbounds := wfChain_mem_version hchain hmemsnap
      have hnesnap : snap.file ≠ e.file := by
        intro hcontra
        have : fileVersion snap.file = snap.version := by
          rw [ledgerFiles_mem hf hmemsnap, fileVersion_versionFile]
        rw [hcontra, hnew] at this
        omega
      rw [reconstructBytes, lastVersionL_append, hv, if_neg (by omega)]
      simp only [Int.toNat_natCast]
      rw [nearest_append_skip (by rw [hk]; intro hcontra; simp at hcontra),
        nearest_shrink hchain (by omega), hns]
      dsimp only
      rw [lookupBlob_cons_ne hnesnap, hlk]
      dsimp only
      have hrange : vs.length + 1 - snap.version = (vs.length - snap.version) + 1 := by
        omega
      rw [hrange, List.range'_concat]
      have hlastelt : snap.version + 1 + 1 * (vs.length - snap.version) = vs.length + 1 := by
        omega
      rw [hlastelt, List.foldlM_append]
      have hfold : (List.range' (snap.version + 1) (vs.length - snap.version)).foldlM
          (replayStep tool ((e.file, dl) :: blobs) (vs ++ [e])) d0 = .ok prior := by
        rw [foldlM_congr_except (fun a ha d => ?_) d0]
        · exact hprior
        · have hb := List.mem_range'_1.mp ha
          exact replayStep_preserved hchain hf hnew (by omega) (by omega) d
      rw [hfold]
      show (List.range' (vs.length + 1) 1).foldlM
        (replayStep tool ((e.file, dl) :: blobs) (vs ++ [e])) prior = .ok target
      simp only [List.range', List.foldlM_cons, List.foldlM_nil]
      rw [replayStep, entryFor_append_new hchain hv]
      simp [hk, havail, lookupBlob_cons_self, hdec,
        show (("delta" : String) == "snapshot") = false by rfl]

theorem traceInv_append_snapshot {tool : PatchTool} {blobs : Blobs}
    {committed : List Bytes} {st : RepoState}
    (hwf : wfLedger st.versions = true) (hfiles : ledgerFiles st.versions = true)
    (hpres : blobsPresent blobs st.versions = true)
    (hlen : st.versions.length = committed.length)
    (hkpos : 0 < st.snapshot_interval)
    (hrec : ∀ v, 1 ≤ v → v ≤ committed.length →
      reconstructBytes tool blobs st.versions ((v : Nat) : Int) = .ok (committedAt committed v))
    (msg' ts' : String) (data : Bytes) :
    TraceInv tool
      ⟨some { st with versions := st.versions ++
          [⟨st.versions.length + 1, "snapshot", versionFile (st.versions.length + 1) true,
            msg', ts', none⟩] },
        writeBlob blobs (versionFile (st.versions.length + 1) true) data⟩
      (committed ++ [data]) := by
  refine ⟨_, rfl, ?_, ?_, ?_, ?_, ?_, ?_⟩
  all_goals dsimp only [writeBlob]
  · exact wfLedger_append hwf (by simp [entryWF])
  · exact ledgerFiles_append hfiles rfl
  · exact blobsPresent_append (blobsPresent_cons hpres)
      (by rw [lookupBlob_cons_self]; rfl)
  · simp [hlen]
  · exact hkpos
  · intro v h1 h2
    simp only [List.length_append, List.length_cons, List.length_nil] at h2
    by_cases hv : v ≤ committed.length
    · rw [reconstruct_preserved hwf hfiles
        (by show st.versions.length < st.versions.length + 1; omega)
        (fileVersion_versionFile _ _) h1 (by omega),
        hrec v h1 hv, committedAt_append_lt h1 hv]
    · have hveq : v = committed.length + 1 := by omega
      rw [hveq, committedAt_append_last, ← hlen]
      exact reconstruct_last_snapshot rfl rfl (lookupBlob_cons_self _ _ _)

theorem traceInv_append_delta {tool : PatchTool} {blobs : Blobs}
    {committed : List Bytes} {st : RepoState}
    (hwf : wfLedger st.versions = true) (hfiles : ledgerFiles st.versions = true)
    (hpres : blobsPresent blobs st.versions = true)
    (hlen : st.versions.length = committed.length)
    (hkpos : 0 < st.snapshot_interval)
    (hrec : ∀ v, 1 ≤ v → v ≤ committed.length →
      reconstructBytes tool blobs st.versions ((v : Nat) : Int) = .ok (committedAt committed v))
    (msg' ts' : String) {data dl : Bytes}
    (havail : tool.avail = true)
    (hdec : tool.dec (committedAt committed committed.length) dl = some data) :
    TraceInv tool
      ⟨some { st with versions := st.versions ++
          [⟨st.versions.length + 1, "delta", versionFile (st.versions.length + 1) false,
            msg', ts', some st.versions.length⟩] },
        writeBlob blobs (versionFile (st.versions.length + 1) false) dl⟩
      (committed ++ [data]) := by
  have hn1 : 1 ≤ st.versions.length := wfLedger_length_pos hwf
  refine ⟨_, rfl, ?_, ?_, ?_, ?_, ?_, ?_⟩
  all_goals dsimp only [writeBlob]
  · exact wfLedger_append hwf (by simp [entryWF])
  · exact ledgerFiles_append hfiles rfl
  · exact blobsPresent_append (blobsPresent_cons hpres)
      (by rw [lookupBlob_cons_self]; rfl)
  · simp [hlen]
  · exact hkpos
  · intro v h1 h2
    simp only [List.length_append, List.length_cons, List.length_nil] at h2
    by_cases hv : v ≤ committed.length
    · rw [reconstruct_preserved hwf hfiles
        (by show st.versions.length < st.versions.length + 1; omega)
        (fileVersion_versionFile _ _) h1 (by omega),
        hrec v h1 hv, committedAt_append_lt h1 hv]
    · have hveq : v = committed.length + 1 := by omega
      have hprior : reconstructBytes tool blobs st.versions
          ((st.versions.length : Nat) : Int) = .ok (committedAt committed committed.length) := by
        rw [hlen]
        exact hrec committed.length (by omega) (by omega)
      rw [hveq, committedAt_append_last, ← hlen]
      exact reconstruct_append_delta hwf hfiles rfl rfl
        (fileVersion_versionFile _ _) havail hprior hdec

theorem addStep {tool : PatchTool} {w : World} {committed : List Bytes}
    (docType : String) (interval : Nat) (msg ts : String)
    (hT : ToolOK tool) (hI : TraceInv tool w.sys committed) :
    ∃ st st' w' e, w.sys.meta = some st ∧
      addOp tool docType interval w msg ts = .ok w' ∧
      w'.fileBytes = w.fileBytes ∧
      w'.sys.meta = some st' ∧
      st'.document_type = st.document_type ∧
      st'.snapshot_interval = st.snapshot_interval ∧
      st'.versions = st.versions ++ [e] ∧
      e.version = st.versions.length + 1 ∧
      e.kind = (if st.versions.length % st.snapshot_interval = 0 then "snapshot"
        else if tool.avail = true ∧
            (tool.enc (committedAt committed committed.length) w.fileBytes).isSome = true
          then "delta" else "snapshot") ∧
      TraceInv tool w'.sys (committed ++ [w.fileBytes]) := by
  obtain ⟨st, hmeta, hwf, hfiles, hpres, hlen, hkpos, hrec⟩ := hI
  have hlast : lastVersionL st.versions = st.versions.length := lastVersionL_of_wf hwf
  have hn1 : 1 ≤ st.versions.length := wfLedger_length_pos hwf
  simp only [addOp, dvcsAdd, mkDVCS]
  rw [hmeta]
  dsimp only
  rw [Nat.add_sub_cancel, hlast]
  by_cases hcad : st.versions.length % st.snapshot_interval = 0
  · rw [if_pos (by simp [hcad])]
    refine ⟨st, _, _, _, rfl, rfl, rfl, rfl, rfl, rfl, rfl, rfl, ?_, ?_⟩
    · rw [if_pos hcad]
    · exact traceInv_append_snapshot hwf hfiles hpres hlen hkpos hrec msg ts w.fileBytes
  · rw [if_neg (by simp [hcad])]
    rw [nearestBefore_eq_atOrBefore]
    obtain ⟨snapB, hsnapB, hmemB, hkindB, hb1, hb2, hb3⟩ :=
      nearestAtOrBefore_of_wf hwf hn1
    rw [hsnapB]
    dsimp only
    have hbbs : (lookupBlob w.sys.blobs snapB.file).isSome = true := by
      rw [blobsPresent, List.all_eq_true] at hpres
      exact hpres snapB hmemB
    obtain ⟨bb, hbb⟩ := Option.isSome_iff_exists.mp hbbs
    rw [hbb]
    dsimp only
    have hpr : reconstructBytes tool w.sys.blobs st.versions
        ((st.versions.length : Nat) : Int) = .ok (committedAt committed committed.length) := by
      rw [hlen]
      exact hrec committed.length (by omega) (by omega)
    rw [hpr]
    dsimp only
    cases htool : tool.avail with
    | false =>
      rw [if_neg (by simp [htool])]
      refine ⟨st, _, _, _, rfl, rfl, rfl, rfl, rfl, rfl, rfl, rfl, ?_, ?_⟩
      · rw [if_neg hcad, if_neg (by simp [htool])]
      · exact traceInv_append_snapshot hwf hfiles hpres hlen hkpos hrec
          (msg ++ " (fallback snapshot)") ts w.fileBytes
    | true =>
      rw [if_pos (by simp)]
      cases henc : tool.enc (committedAt committed committed.length) w.fileBytes with
      | none =>
        dsimp only
        refine ⟨st, _, _, _, rfl, rfl, rfl, rfl, rfl, rfl, rfl, rfl, ?_, ?_⟩
        · rw [if_neg hcad, if_neg (by simp [henc])]
        · exact traceInv_append_snapshot hwf hfiles hpres hlen hkpos hrec
            (msg ++ " (fallback snapshot)") ts w.fileBytes
      | some dl =>
        dsimp only
        refine ⟨st, _, _, _, rfl, rfl, rfl, rfl, rfl, rfl, rfl, rfl, ?_, ?_⟩
        · rw [if_neg hcad, if_pos (by simp [htool, henc])]
        · exact traceInv_append_delta hwf hfiles hpres hlen hkpos hrec msg ts
            htool (hT _ _ _ henc)

theorem initInv (tool : PatchTool) (docType : String) {interval : Nat}
    (hk : 0 < interval) (b0 : Bytes) (m0 t0 : String) :
    TraceInv tool (initOp docType interval ⟨b0, ⟨none, []⟩⟩ m0 t0).sys [b0] := by
  refine ⟨⟨docType, interval, [⟨1, "snapshot", versionFile 1 true, m0, t0, none⟩]⟩,
    rfl, rfl, rfl, rfl, rfl, hk, ?_⟩
  intro v h1 h2
  have hv1 : v ≤ 1 := by simpa using h2
  have hv : v = 1 := by omega
  subst hv
  rfl

theorem runAddsInv {tool : PatchTool} (docType : String)
    (l : List (Bytes × String × String)) :
    ∀ (w : World) (committed : List Bytes), ToolOK tool →
      TraceInv tool w.sys committed →
      ∃ w', runAdds tool docType w l = .ok w' ∧
        TraceInv tool w'.sys (committed ++ l.map (fun x => x.1)) := by
  induction l with
  | nil =>
    intro w committed _ hI
    exact ⟨w, rfl, by simpa using hI⟩
  | cons x l ih =>
    intro w committed hT hI
    obtain ⟨st, st', w1, e, hmeta, hadd, hfb, hmeta', hdt, hint, hvers, hver, hkind, hI'⟩ :=
      addStep (w := setFile w x.1) docType 5 x.2.1 x.2.2 hT hI
    obtain ⟨w', hrun, hInv⟩ := ih w1 (committed ++ [x.1]) hT hI'
    refine ⟨w', ?_, ?_⟩
    · simp only [runAdds, List.foldlM_cons, cliAdd]
      rw [hadd]
      simpa [runAdds] using hrun
    · rw [List.map_cons, show committed ++ x.1 :: List.map (fun x => x.1) l
        = (committed ++ [x.1]) ++ List.map (fun x => x.1) l by simp]
      exact hInv

/-- C1: every version committed by `init` or a chain of `add`s, with any
snapshot interval and chain length, reconstructs to exactly the bytes the
tracked file held when that version was created, also after later versions
were appended. -/
theorem C1_round_trip (tool : PatchTool) (docType : String) (interval : Nat)
    (b0 : Bytes) (m0 t0 : String) (adds : List (Bytes × String × String))
    (hT : ToolOK tool) (hk : 0 < interval) :
    ∃ w st, runTrace tool docType interval b0 m0 t0 adds = .ok w ∧
      w.sys.meta = some st ∧
      ∀ v, 1 ≤ v → v ≤ (allBytes b0 adds).length →
        reconstructBytes tool w.sys.blobs st.versions ((v : Nat) : Int)
          = .ok ((allBytes b0 adds).getD (v - 1) []) := by
  obtain ⟨w', hrun, hInv⟩ :=
    runAddsInv docType adds _ [b0] hT (initInv tool docType hk b0 m0 t0)
  obtain ⟨st, hmeta, _, _, _, hlen, _, hrec⟩ := hInv
  refine ⟨w', st, hrun, hmeta, ?_⟩
  intro v h1 h2
  have h2' : v ≤ ([b0] ++ adds.map (fun x => x.1)).length := by
    simpa [allBytes] using h2
  have := hrec v h1 h2'
  simpa [committedAt, allBytes] using this

/-- Witness for C1: a three-version trace with interval 3 (init, then two
delta commits). -/
theorem C1_round_trip_witness :
    ∃ w st, runTrace okTool "pdf" 3 [1] "m" "t"
        [([2], "m2", "t2"), ([3], "m3", "t3")] = .ok w ∧
      w.sys.meta = some st ∧
      ∀ v, 1 ≤ v → v ≤ (allBytes [1] [([2], "m2", "t2"), ([3], "m3", "t3")]).length →
        reconstructBytes okTool w.sys.blobs st.versions ((v : Nat) : Int)
          = .ok ((allBytes [1] [([2], "m2", "t2"), ([3], "m3", "t3")]).getD (v - 1) []) :=
  C1_round_trip okTool "pdf" 3 [1] "m" "t" [([2], "m2", "t2"), ([3], "m3", "t3")]
    (by intro base target delta h; simp [okTool] at h ⊢; exact h.symm) (by decide)

theorem kindsPattern_append (k i : Nat) (l : List VersionEntry) (e : VersionEntry) :
    kindsPattern k i (l ++ [e])
      = (kindsPattern k i l && (e.kind == expectedKind k (i + l.length))) := by
  induction l generalizing i with
  | nil => simp [kindsPattern]
  | cons x l ih =>
    simp [kindsPattern, ih (i + 1), Bool.and_assoc, Nat.add_assoc, Nat.add_comm 1 l.length]

theorem kindsPattern_getElem {k : Nat} : ∀ {l : List VersionEntry} {i : Nat},
    kindsPattern k i l = true →
    ∀ j (hj : j < l.length), (l[j]).kind = expectedKind k (i + j) := by
  intro l
  induction l with
  | nil => intro i _ j hj; simp at hj
  | cons x l ih =>
    intro i h j hj
    simp only [kindsPattern, Bool.and_eq_true, beq_iff_eq] at h
    cases j with
    | zero => simpa using h.1
    | succ j =>
      have := ih h.2 j (by simpa using Nat.lt_of_succ_lt_succ hj)
      simpa [Nat.add_assoc, Nat.add_comm 1 j] using this

theorem countP_kindsPattern {k : Nat} : ∀ (l : List VersionEntry) (i : Nat),
    kindsPattern k i l = true →
    l.countP (fun e => e.kind == "snapshot")
      = (List.range' i l.length).countP (fun j => j % k == 0) := by
  intro l
  induction l with
  | nil => intro i _; rfl
  | cons x l ih =>
    intro i h
    simp only [kindsPattern, Bool.and_eq_true, beq_iff_eq] at h
    rw [List.countP_cons, ih (i + 1) h.2, List.length_cons, List.range'_succ,
      List.countP_cons]
    by_cases hik : i % k == 0
    · simp [h.1, expectedKind, hik, Nat.add_comm]
    · simp [h.1, expectedKind, hik, Nat.add_comm]

theorem count_multiples {k : Nat} :
    ∀ n, 1 ≤ n → (List.range n).countP (fun j => j % k == 0) = (n - 1) / k + 1 := by
  intro n
  induction n with
  | zero => intro h; omega
  | succ n ih =>
    intro _
    by_cases hn : 1 ≤ n
    · rw [List.range_succ, List.countP_append, ih hn]
      have hsd := Nat.succ_div (n - 1) k
      rw [show n - 1 + 1 = n by omega] at hsd
      simp only [List.countP_cons, List.countP_nil, Nat.zero_add, Nat.add_sub_cancel]
      by_cases hdvd : k ∣ n
      · have hmod : (n % k == 0) = true := by
          simpa using Nat.dvd_iff_mod_eq_zero.mp hdvd
        simp only [hdvd, if_true] at hsd
        simp only [hmod, if_true]
        omega
      · have hmod : (n % k == 0) = false := by
          simpa using fun hc => hdvd (Nat.dvd_of_mod_eq_zero hc)
        simp only [hdvd, if_false] at hsd
        simp only [hmod, Bool.false_eq_true, if_false]
        omega
    · have hn0 : n = 0 := by omega
      subst hn0
      rw [List.range_succ]
      simp [Nat.zero_mod]

theorem runAddsCadence {tool : PatchTool} (docType : String) (interval : Nat)
    (hT : ToolOK tool) (havail : tool.avail = true)
    (henc : ∀ b t, (tool.enc b t).isSome = true)
    (l : List (Bytes × String × String)) :
    ∀ (w : World) (committed : List Bytes),
      TraceInv tool w.sys committed →
      (∃ st, w.sys.meta = some st ∧ st.snapshot_interval = interval ∧
        kindsPattern interval 0 st.versions = true) →
      ∃ w' st', runAdds tool docType w l = .ok w' ∧
        TraceInv tool w'.sys (committed ++ l.map (fun x => x.1)) ∧
        w'.sys.meta = some st' ∧ st'.snapshot_interval = interval ∧
        kindsPattern interval 0 st'.versions = true := by
  induction l with
  | nil =>
    intro w committed hI hP
    obtain ⟨st, hmeta, hint, hpat⟩ := hP
    exact ⟨w, st, rfl, by simpa using hI, hmeta, hint, hpat⟩
  | cons x l ih =>
    intro w committed hI hP
    obtain ⟨st0, hmeta0, hint0, hpat0⟩ := hP
    obtain ⟨st, st', w1, e, hmeta, hadd, hfb, hmeta', hdt, hint, hvers, hver, hkind, hI'⟩ :=
      addStep (w := setFile w x.1) docType 5 x.2.1 x.2.2 hT hI
    have hst : st = st0 := by
      have := hmeta0.symm.trans hmeta
      exact (Option.some.inj this).symm
    subst hst
    have hkind' : e.kind = expectedKind interval st.versions.length := by
      rw [hkind, expectedKind, hint0]
      by_cases hc : st.versions.length % interval = 0
      · rw [if_pos hc, if_pos (by simpa using hc)]
      · rw [if_neg hc, if_pos (by simp [havail, henc]), if_neg (by simpa using hc)]
    have hpat1 : kindsPattern interval 0 st'.versions = true := by
      rw [hvers, kindsPattern_append]
      simp [hpat0, hkind']
    obtain ⟨w', st'', hrun, hInv, hm, hi, hp⟩ := ih w1 (committed ++ [x.1]) hI'
      ⟨st', hmeta', by rw [hint, hint0], hpat1⟩
    refine ⟨w', st'', ?_, ?_, hm, hi, hp⟩
    · simp only [runAdds, List.foldlM_cons, cliAdd]
      rw [hadd]
      simpa [runAdds] using hrun
    · rw [List.map_cons, show committed ++ x.1 :: List.map (fun x => x.1) l
        = (committed ++ [x.1]) ++ List.map (fun x => x.1) l by simp]
      exact hInv

/-- C2: `add` stores a snapshot exactly when `(next - 1) % interval = 0` and
otherwise a delta (when encoding succeeds), so a trace of `N` versions with
interval `k` and a never-failing encoder holds exactly `1 + (N - 1) / k`
snapshot records. -/
theorem C2_snapshot_cadence (tool : PatchTool) (docType : String) (interval : Nat)
    (b0 : Bytes) (m0 t0 : String) (adds : List (Bytes × String × String))
    (hT : ToolOK tool) (havail : tool.avail = true)
    (henc : ∀ b t, (tool.enc b t).isSome = true) (hk : 0 < interval) :
    ∃ w st, runTrace tool docType interval b0 m0 t0 adds = .ok w ∧
      w.sys.meta = some st ∧
      st.versions.length = adds.length + 1 ∧
      (∀ i (hi : i < st.versions.length),
        (st.versions[i]).kind = expectedKind interval i) ∧
      st.versions.countP (fun e => e.kind == "snapshot")
        = 1 + (st.versions.length - 1) / interval := by
  obtain ⟨w', st', hrun, hInv, hm, hi, hp⟩ :=
    runAddsCadence docType interval hT havail henc adds _ [b0]
      (initInv tool docType hk b0 m0 t0)
      ⟨⟨docType, interval, [⟨1, "snapshot", versionFile 1 true, m0, t0, none⟩]⟩,
        rfl, rfl, by simp [kindsPattern, expectedKind, Nat.zero_mod]⟩
  obtain ⟨st2, hmeta2, _, _, _, hlen, _, _⟩ := hInv
  have hst : st2 = st' := Option.some.inj (hmeta2.symm.trans hm)
  subst hst
  have hlen' : st2.versions.length = adds.length + 1 := by
    simpa using hlen
  refine ⟨w', st2, hrun, hm, hlen', fun i hj => by simpa using kindsPattern_getElem hp i hj, ?_⟩
  rw [countP_kindsPattern st2.versions 0 hp]
  have hr : List.range' 0 st2.versions.length = List.range st2.versions.length := by
    simp [List.range_eq_range']
  rw [hr, count_multiples st2.versions.length (by omega)]
  omega

/-- Witness for C2: five versions at interval 2 yield three snapshots. -/
theorem C2_snapshot_cadence_witness :
    ∃ w st, runTrace okTool "docx" 2 [0] "m" "t"
        [([1], "a", "u"), ([2], "b", "v"), ([3], "c", "x"), ([4], "d", "y")] = .ok w ∧
      w.sys.meta = some st ∧
      st.versions.length = 4 + 1 ∧
      (∀ i (hi : i < st.versions.length),
        (st.versions[i]).kind = expectedKind 2 i) ∧
      st.versions.countP (fun e => e.kind == "snapshot")
        = 1 + (st.versions.length - 1) / 2 := by
  have h := C2_snapshot_cadence okTool "docx" 2 [0] "m" "t"
    [([1], "a", "u"), ([2], "b", "v"), ([3], "c", "x"), ([4], "d", "y")]
    (by intro base target delta h; simp [okTool] at h ⊢; exact h.symm)
    rfl (fun b t => rfl) (by decide)
  simpa using h

/-- C5: once initialized the ledger is non-empty with contiguous versions
from 1, the first record a snapshot and every delta pointing one back;
`init` on an initialized repository changes nothing, a successful `add`
appends exactly one record and preserves the invariant. -/
theorem C5_ledger_invariant :
    (∀ (docType : String) (interval : Nat) (w : World) (msg ts : String),
      w.sys.meta = none →
      ∃ st, (initOp docType interval w msg ts).sys.meta = some st ∧
        st.versions = [⟨1, "snapshot", versionFile 1 true, msg, ts, none⟩] ∧
        wfLedger st.versions = true) ∧
    (∀ (docType : String) (interval : Nat) (w : World) (msg ts : String)
        (st : RepoState), w.sys.meta = some st →
      initOp docType interval w msg ts = w) ∧
    (∀ (tool : PatchTool) (docType : String) (interval : Nat) (w w' : World)
        (msg ts : String) (st : RepoState),
      w.sys.meta = some st → wfLedger st.versions = true →
      addOp tool docType interval w msg ts = .ok w' →
      ∃ st' e, w'.sys.meta = some st' ∧ st'.versions = st.versions ++ [e] ∧
        wfLedger st'.versions = true) := by
  refine ⟨?_, ?_, ?_⟩
  · intro docType interval w msg ts hmeta
    refine ⟨⟨docType, interval, [⟨1, "snapshot", versionFile 1 true, msg, ts, none⟩]⟩,
      ?_, rfl, rfl⟩
    simp only [initOp, dvcsInit, mkDVCS]
    rw [hmeta]
  · intro docType interval w msg ts st hmeta
    simp only [initOp, dvcsInit, mkDVCS]
    rw [hmeta]
  · intro tool docType interval w w' msg ts st hmeta hwf hadd
    have hlast : lastVersionL st.versions = st.versions.length := lastVersionL_of_wf hwf
    simp only [addOp, dvcsAdd, mkDVCS] at hadd
    rw [hmeta] at hadd
    dsimp only at hadd
    rw [Nat.add_sub_cancel, hlast] at hadd
    split at hadd
    · obtain rfl := Except.ok.inj hadd
      exact ⟨_, _, rfl, rfl, wfLedger_append hwf (by simp [entryWF])⟩
    · split at hadd
      · exact absurd hadd (by simp)
      · split at hadd
        · exact absurd hadd (by simp)
        · split at hadd
          · exact absurd hadd (by simp)
          · split at hadd
            · split at hadd
              · obtain rfl := Except.ok.inj hadd
                exact ⟨_, _, rfl, rfl, wfLedger_append hwf (by simp [entryWF])⟩
              · obtain rfl := Except.ok.inj hadd
                exact ⟨_, _, rfl, rfl, wfLedger_append hwf (by simp [entryWF])⟩
            · obtain rfl := Except.ok.inj hadd
              exact ⟨_, _, rfl, rfl, wfLedger_append hwf (by simp [entryWF])⟩

/-- Witness for C5: a fresh `init`, an `init` on an existing repository, and
one successful delta `add`. -/
theorem C5_ledger_invariant_witness :
    (∃ st, (initOp "docx" 5 ⟨[9], ⟨none, []⟩⟩ "m" "t").sys.meta = some st ∧
      st.versions = [⟨1, "snapshot", versionFile 1 true, "m", "t", none⟩] ∧
      wfLedger st.versions = true) ∧
    initOp "docx" 5 sampleInitWorld "m" "t" = sampleInitWorld ∧
    (∃ st' e, (⟨[5], ⟨some ⟨"docx", 5,
        [⟨1, "snapshot", "v0001.snapshot", "m1", "t1", none⟩,
         ⟨2, "delta", "v0002.delta", "m2", "t2", some 1⟩]⟩,
        [("v0002.delta", [5]), ("v0001.snapshot", [5])]⟩⟩ : World).sys.meta = some st' ∧
      st'.versions = [⟨1, "snapshot", versionFile 1 true, "m1", "t1", none⟩] ++ [e] ∧
      wfLedger st'.versions = true) :=
  ⟨C5_ledger_invariant.1 "docx" 5 ⟨[9], ⟨none, []⟩⟩ "m" "t" rfl,
   C5_ledger_invariant.2.1 "docx" 5 sampleInitWorld "m" "t" _ rfl,
   C5_ledger_invariant.2.2 okTool "docx" 7 sampleInitWorld _ "m2" "t2"
     ⟨"docx", 5, [⟨1, "snapshot", versionFile 1 true, "m1", "t1", none⟩]⟩
     rfl (by decide) (by rfl)⟩

/-- Counterexample to C3: on an initialized two-version repository whose
second record is a delta, with the patch tool unavailable (so delta encoding
certainly fails), `add` does not succeed: reconstructing the prior version
(required by the delta branch before any fallback) raises. -/
theorem C3_counterexample :
    noTool.avail = false ∧
    (∀ b t, noTool.enc b t = none) ∧
    sampleDeltaWorld.sys.meta.isSome = true ∧
    addOp noTool "docx" 5 sampleDeltaWorld "m" "t"
      = .error (.reconstructFailed .toolUnavailable) :=
  ⟨rfl, fun _ _ => rfl, rfl, by rfl⟩

/-- C3 (amended): when the delta branch's reconstruction of the prior
version succeeds (in particular whenever no delta record is replayed for
it), an `add` whose delta encoding fails — tool unavailable or encoder
error — still succeeds and appends exactly one snapshot record, its message
annotated as a fallback exactly when the delta branch was taken. -/
theorem C3_fallback_amended (tool : PatchTool) (docType : String) (interval : Nat)
    (w : World) (msg ts : String) (st : RepoState) (pb : Bytes)
    (hmeta : w.sys.meta = some st) (hwf : wfLedger st.versions = true)
    (hencfail : tool.avail = false ∨ ∀ b t, tool.enc b t = none)
    (hprior : reconstructBytes tool w.sys.blobs st.versions
        ((st.versions.length : Nat) : Int) = .ok pb) :
    ∃ w', addOp tool docType interval w msg ts = .ok w' ∧
      ∃ e, w'.sys.meta = some { st with versions := st.versions ++ [e] } ∧
        e.kind = "snapshot" ∧ e.version = st.versions.length + 1 ∧
        e.message = (if st.versions.length % st.snapshot_interval = 0 then msg
          else msg ++ " (fallback snapshot)") := by
  have hlast : lastVersionL st.versions = st.versions.length := lastVersionL_of_wf hwf
  have hn1 : 1 ≤ st.versions.length := wfLedger_length_pos hwf
  have hprior' := hprior
  simp only [addOp, dvcsAdd, mkDVCS]
  rw [hmeta]
  dsimp only
  rw [Nat.add_sub_cancel, hlast]
  by_cases hcad : st.versions.length % st.snapshot_interval = 0
  · rw [if_pos (by simpa using hcad)]
    exact ⟨_, rfl, _, rfl, rfl, rfl, by rw [if_pos hcad]⟩
  · rw [if_neg (by simpa using hcad)]
    rw [reconstructBytes, hlast, if_neg (by omega)] at hprior
    simp only [Int.toNat_natCast] at hprior
    cases hns : nearestSnapshotAtOrBefore st.versions st.versions.length with
    | none => rw [hns] at hprior; exact absurd hprior (by simp)
    | some snap =>
      rw [hns] at hprior
      dsimp only at hprior
      cases hlk : lookupBlob w.sys.blobs snap.file with
      | none => rw [hlk] at hprior; exact absurd hprior (by simp)
      | some d0 =>
        rw [nearestBefore_eq_atOrBefore, hns]
        dsimp only
        rw [hlk]
        dsimp only
        rw [hprior']
        dsimp only
        cases htool : tool.avail with
        | false =>
          rw [if_neg (by simp [htool])]
          exact ⟨_, rfl, _, rfl, rfl, rfl, by rw [if_neg hcad]⟩
        | true =>
          rw [if_pos (by simp)]
          have henc : tool.enc pb w.fileBytes = none := by
            rcases hencfail with h | h
            · rw [htool] at h; exact absurd h (by simp)
            · exact h _ _
          rw [henc]
          exact ⟨_, rfl, _, rfl, rfl, rfl, by rw [if_neg hcad]⟩

/-- Witness for the amended C3: an always-failing encoder on a one-version
repository still commits, as a fallback snapshot. -/
theorem C3_fallback_amended_witness :
    ∃ w', addOp failEncTool "docx" 9 sampleInitWorld "m" "t" = .ok w' ∧
      ∃ e, w'.sys.meta = some { (⟨"docx", 5,
          [⟨1, "snapshot", versionFile 1 true, "m1", "t1", none⟩]⟩ : RepoState) with
          versions := [⟨1, "snapshot", versionFile 1 true, "m1", "t1", none⟩] ++ [e] } ∧
        e.kind = "snapshot" ∧ e.version = 1 + 1 ∧
        e.message = (if 1 % 5 = 0 then "m" else "m" ++ " (fallback snapshot)") := by
  have h := C3_fallback_amended failEncTool "docx" 9 sampleInitWorld "m" "t"
    ⟨"docx", 5, [⟨1, "snapshot", versionFile 1 true, "m1", "t1", none⟩]⟩ [5]
    rfl (by decide) (Or.inr fun _ _ => rfl) (by rfl)
  simpa using h

theorem wf_version_unique {vs : List VersionEntry} (hchain : wfChain 0 vs = true)
    {a b : VersionEntry} (ha : a ∈ vs) (hb : b ∈ vs) (hv : a.version = b.version) :
    a = b := by
  obtain ⟨i, hi, rfl⟩ := List.getElem_of_mem ha
  obtain ⟨j, hj, rfl⟩ := List.getElem_of_mem hb
  have hvi := wfChain_getElem hchain i hi
  have hvj := wfChain_getElem hchain j hj
  have hij : i = j := by omega
  subst hij
  rfl

theorem fold_bad_tool {tool : PatchTool} {blobs : Blobs} {vs : List VersionEntry}
    (hbad : tool.avail = false ∨ ∀ b d, tool.dec b d = none) :
    ∀ (l : List Nat) (d : Bytes),
      (∀ wv ∈ l, ∃ ew, entryFor vs wv = some ew ∧
        (lookupBlob blobs ew.file).isSome = true) →
      (∃ er, l.foldlM (replayStep tool blobs vs) d = .error er ∧
        (er = .toolUnavailable ∨ ∃ v, er = .decodeFailed v)) ∨
      ((∃ out, l.foldlM (replayStep tool blobs vs) d = .ok out) ∧
        ∀ wv ∈ l, ∃ ew, entryFor vs wv = some ew ∧ ew.kind = "snapshot") := by
  intro l
  induction l with
  | nil => intro d _; exact Or.inr ⟨⟨d, rfl⟩, by simp⟩
  | cons x l ih =>
    intro d hall
    obtain ⟨ew, hew, hlook⟩ := hall x (by simp)
    obtain ⟨bw, hbw⟩ := Option.isSome_iff_exists.mp hlook
    by_cases hk : (ew.kind == "snapshot") = true
    · have hstep : replayStep tool blobs vs d x = .ok bw := by
        rw [replayStep, hew]
        dsimp only
        rw [if_pos hk, hbw]
      rcases ih bw (fun wv hwv => hall wv (by simp [hwv])) with ⟨er, herr, hsh⟩ | ⟨⟨out, hok⟩, hsnap⟩
      · refine Or.inl ⟨er, ?_, hsh⟩
        rw [List.foldlM_cons, hstep]
        exact herr
      · refine Or.inr ⟨⟨out, ?_⟩, ?_⟩
        · rw [List.foldlM_cons, hstep]
          exact hok
        · intro wv hwv
          rcases List.mem_cons.mp hwv with rfl | hwv'
          · exact ⟨ew, hew, beq_iff_eq.mp hk⟩
          · exact hsnap wv hwv'
    · have hkf : (ew.kind == "snapshot") = false := by simpa using hk
      cases htool : tool.avail with
      | false =>
        refine Or.inl ⟨.toolUnavailable, ?_, Or.inl rfl⟩
        rw [List.foldlM_cons, replayStep, hew]
        dsimp only
        rw [if_neg (by simp [hkf]), htool]
        rfl
      | true =>
        have hdec : ∀ b d, tool.dec b d = none := by
          rcases hbad with h | h
          · rw [htool] at h; exact absurd h (by simp)
          · exact h
        refine Or.inl ⟨.decodeFailed x, ?_, Or.inr ⟨x, rfl⟩⟩
        rw [List.foldlM_cons, replayStep, hew]
        dsimp only
        rw [if_neg (by simp [hkf]), htool, if_pos rfl, hbw]
        dsimp only
        rw [hdec d bw]
        rfl

/-- C4: hitting a delta record while the tool is unavailable, or while every
decode invocation fails, aborts reconstruction with the corresponding fatal
error, and a `get` that hits such a failure leaves the output file exactly
as it was. -/
theorem C4_decode_failure_fatal (tool : PatchTool) (s : Sys) (st : RepoState)
    (target : Nat) (outFile : Option Bytes) (e : VersionEntry)
    (hmeta : s.meta = some st) (hwf : wfLedger st.versions = true)
    (hpres : blobsPresent s.blobs st.versions = true)
    (h1 : 1 ≤ target) (h2 : target ≤ st.versions.length)
    (hentry : entryFor st.versions target = some e) (hkind : e.kind ≠ "snapshot")
    (hbad : tool.avail = false ∨ ∀ b d, tool.dec b d = none) :
    ∃ er, reconstructBytes tool s.blobs st.versions ((target : Nat) : Int) = .error er ∧
      (er = .toolUnavailable ∨ ∃ v, er = .decodeFailed v) ∧
      getOp tool s ((target : Nat) : Int) outFile = (.error (.recFail er), outFile) := by
  have hchain := wfLedger_chain hwf
  have hlast := lastVersionL_of_wf hwf
  obtain ⟨snap, hns, hmem, hskind, hs1, hs2, hs3⟩ := nearestAtOrBefore_of_wf hwf h1
  have hemem : e ∈ st.versions := List.mem_of_find?_eq_some hentry
  have hever : e.version = target := by simpa using List.find?_some hentry
  have hsnap_ne : snap.version ≠ target := by
    intro hc
    have hse : snap = e := wf_version_unique hchain hmem hemem (by omega)
    rw [hse] at hskind
    exact hkind hskind
  have hslt : snap.version < target := by omega
  have hlooks : (lookupBlob s.blobs snap.file).isSome = true := by
    rw [blobsPresent, List.all_eq_true] at hpres
    exact hpres snap hmem
  obtain ⟨d0, hd0⟩ := Option.isSome_iff_exists.mp hlooks
  have hall : ∀ wv ∈ List.range' (snap.version + 1) (target - snap.version),
      ∃ ew, entryFor st.versions wv = some ew ∧
        (lookupBlob s.blobs ew.file).isSome = true := by
    intro wv hwv
    obtain ⟨hbl, hbr⟩ := List.mem_range'_1.mp hwv
    have hw1 : 1 ≤ wv := by omega
    have hw2 : wv ≤ st.versions.length := by omega
    obtain ⟨ew, hew, hewv⟩ := entryFor_eq_some_of_wf hchain hw1 hw2
    refine ⟨ew, hew, ?_⟩
    rw [blobsPresent, List.all_eq_true] at hpres
    exact hpres ew (List.mem_of_find?_eq_some hew)
  rcases fold_bad_tool hbad (List.range' (snap.version + 1) (target - snap.version)) d0 hall
    with ⟨er, herr, hsh⟩ | ⟨⟨out, hok⟩, hallsnap⟩
  · have hrec : reconstructBytes tool s.blobs st.versions ((target : Nat) : Int)
        = .error er := by
      rw [reconstructBytes, hlast, if_neg (by omega)]
      simp only [Int.toNat_natCast]
      rw [hns]
      dsimp only
      rw [hd0]
      dsimp only
      exact herr
    refine ⟨er, hrec, hsh, ?_⟩
    simp only [getOp, dvcsGet, hmeta]
    rw [hrec]
  · exfalso
    have htmem : target ∈ List.range' (snap.version + 1) (target - snap.version) := by
      rw [List.mem_range'_1]
      omega
    obtain ⟨ew, hew, hewk⟩ := hallsnap target htmem
    rw [hentry] at hew
    obtain rfl := Option.some.inj hew
    exact hkind hewk

/-- Witness for C4: `get 2` on the two-version repository with a delta
record, tool unavailable. -/
theorem C4_decode_failure_fatal_witness :
    ∃ er, reconstructBytes noTool sampleDeltaWorld.sys.blobs
        [⟨1, "snapshot", versionFile 1 true, "m1", "t1", none⟩,
         ⟨2, "delta", versionFile 2 false, "m2", "t2", some 1⟩] ((2 : Nat) : Int)
        = .error er ∧
      (er = .toolUnavailable ∨ ∃ v, er = .decodeFailed v) ∧
      getOp noTool sampleDeltaWorld.sys ((2 : Nat) : Int) (some [9])
        = (.error (.recFail er), some [9]) :=
  C4_decode_failure_fatal noTool sampleDeltaWorld.sys
    ⟨"docx", 5, [⟨1, "snapshot", versionFile 1 true, "m1", "t1", none⟩,
      ⟨2, "delta", versionFile 2 false, "m2", "t2", some 1⟩]⟩
    2 (some [9]) ⟨2, "delta", versionFile 2 false, "m2", "t2", some 1⟩
    rfl (by decide) (by decide) (by decide) (by decide) (by rfl) (by decide)
    (Or.inl rfl)

theorem replayStep_ne_outOfRange {tool : PatchTool} {blobs : Blobs}
    {vs : List VersionEntry} {d : Bytes} {v : Nat} :
    replayStep tool blobs vs d v ≠ .error .outOfRange := by
  rw [replayStep]
  split
  · simp
  · split
    · split <;> simp
    · split
      · split
        · simp
        · split <;> simp
      · simp

theorem fold_ne_outOfRange {tool : PatchTool} {blobs : Blobs} {vs : List VersionEntry} :
    ∀ (l : List Nat) (d : Bytes),
      l.foldlM (replayStep tool blobs vs) d ≠ .error .outOfRange := by
  intro l
  induction l with
  | nil => intro d h; exact Except.noConfusion h
  | cons x l ih =>
    intro d h
    rw [List.foldlM_cons] at h
    cases hstep : replayStep tool blobs vs d x with
    | error e =>
      rw [hstep] at h
      have he : e = .outOfRange := Except.error.inj h
      subst he
      exact replayStep_ne_outOfRange hstep
    | ok b =>
      rw [hstep] at h
      exact ih b h

/-- C6: reconstruction reports the out-of-range error exactly when the
target version is below 1 or above the last recorded version. -/
theorem C6_version_range (tool : PatchTool) (blobs : Blobs) (vs : List VersionEntry)
    (target : Int) (_hwf : wfLedger vs = true) :
    reconstructBytes tool blobs vs target = .error .outOfRange
      ↔ (target < 1 ∨ (lastVersionL vs : Int) < target) := by
  constructor
  · intro h
    by_contra hc
    push_neg at hc
    rw [reconstructBytes, if_neg (by omega)] at h
    dsimp only at h
    cases hns : nearestSnapshotAtOrBefore vs target.toNat with
    | none => rw [hns] at h; simp at h
    | some snap =>
      rw [hns] at h
      dsimp only at h
      cases hlk : lookupBlob blobs snap.file with
      | none => rw [hlk] at h; simp at h
      | some d0 =>
        rw [hlk] at h
        dsimp only at h
        exact fold_ne_outOfRange _ _ h
  · intro h
    rw [reconstructBytes, if_pos (by omega)]

/-- Witness for C6: versions 0 and 999 are rejected on a four-version
repository while version 3 is not. -/
theorem C6_version_range_witness :
    reconstructBytes noTool sample4World.sys.blobs
      [⟨1, "snapshot", versionFile 1 true, "m1", "t1", none⟩,
       ⟨2, "delta", versionFile 2 false, "m2", "t2", some 1⟩,
       ⟨3, "snapshot", versionFile 3 true, "m3", "t3", none⟩,
       ⟨4, "delta", versionFile 4 false, "m4", "t4", some 3⟩] 0 = .error .outOfRange ∧
    reconstructBytes noTool sample4World.sys.blobs
      [⟨1, "snapshot", versionFile 1 true, "m1", "t1", none⟩,
       ⟨2, "delta", versionFile 2 false, "m2", "t2", some 1⟩,
       ⟨3, "snapshot", versionFile 3 true, "m3", "t3", none⟩,
       ⟨4, "delta", versionFile 4 false, "m4", "t4", some 3⟩] 999 = .error .outOfRange ∧
    ¬(reconstructBytes noTool sample4World.sys.blobs
      [⟨1, "snapshot", versionFile 1 true, "m1", "t1", none⟩,
       ⟨2, "delta", versionFile 2 false, "m2", "t2", some 1⟩,
       ⟨3, "snapshot", versionFile 3 true, "m3", "t3", none⟩,
       ⟨4, "delta", versionFile 4 false, "m4", "t4", some 3⟩] 3 = .error .outOfRange) :=
  ⟨(C6_version_range noTool sample4World.sys.blobs _ 0 (by decide)).mpr (by decide),
   (C6_version_range noTool sample4World.sys.blobs _ 999 (by decide)).mpr (by decide),
   fun h => absurd ((C6_version_range noTool sample4World.sys.blobs _ 3 (by decide)).mp h)
     (by decide)⟩

theorem parseEntry_entryJson (e : VersionEntry) : parseEntry (entryJson e) = some e := by
  obtain ⟨v, kd, f, m, c, b⟩ := e
  cases b with
  | none => rfl
  | some bv => rfl

theorem mapM_parseEntry (l : List VersionEntry) :
    (l.map entryJson).mapM parseEntry = some l := by
  induction l with
  | nil => rfl
  | cons e l ih =>
    rw [List.map_cons, List.mapM_cons, parseEntry_entryJson, ih]
    rfl

theorem loadMeta_saveJson (st : RepoState) : loadMeta (some (saveJson st)) = .ok st := by
  obtain ⟨dt, k, vs⟩ := st
  have h : loadMeta (some (saveJson ⟨dt, k, vs⟩))
      = (match (vs.map entryJson).mapM parseEntry with
        | some vs' => LoadResult.ok ⟨dt, k, vs'⟩
        | none => LoadResult.corrupt) := rfl
  rw [h, mapM_parseEntry]

/-- Counterexample to C7: a structurally well-formed ledger whose
`document_type` is neither of the two recognized values loads without any
error — `RepoState.load` never validates `document_type`. -/
theorem C7_counterexample :
    loadMeta (some (saveJson ⟨"banana", 5, []⟩)) = .ok ⟨"banana", 5, []⟩ ∧
    "banana" ≠ "docx" ∧ "banana" ≠ "pdf" :=
  ⟨rfl, by decide, by decide⟩

/-- C7 (amended): `load` is absent exactly when no metadata file exists;
any saved ledger loads back unchanged whatever its `document_type` string
(no validation against the recognized values); structurally malformed
documents (non-object root, missing keys) fail as corrupt. -/
theorem C7_load_contract_amended :
    loadMeta none = .absent ∧
    (∀ j : Json, loadMeta (some j) ≠ .absent) ∧
    (∀ st : RepoState, loadMeta (some (saveJson st)) = .ok st) ∧
    loadMeta (some (Json.arr [])) = .corrupt ∧
    loadMeta (some (Json.obj [])) = .corrupt := by
  refine ⟨rfl, ?_, loadMeta_saveJson, rfl, rfl⟩
  intro j
  cases j with
  | null => simp [loadMeta]
  | num n => simp [loadMeta]
  | str s => simp [loadMeta]
  | arr xs => simp [loadMeta]
  | obj kvs =>
    simp only [loadMeta]
    split
    · split
      · split <;> simp
      · simp
    · simp

/-- C8: `init` on a path whose repository already exists raises no error,
appends no record, writes no blob and leaves the ledger untouched — the
world is returned exactly as it was. -/
theorem C8_idempotent_init (docType : String) (interval : Nat) (w : World)
    (msg ts : String) (st : RepoState) (hmeta : w.sys.meta = some st) :
    initOp docType interval w msg ts = w := by
  simp only [initOp, dvcsInit, mkDVCS]
  rw [hmeta]

/-- Witness for C8 on a concrete initialized repository. -/
theorem C8_idempotent_init_witness :
    initOp "pdf" 3 sampleInitWorld "x" "y" = sampleInitWorld :=
  C8_idempotent_init "pdf" 3 sampleInitWorld "x" "y"
    ⟨"docx", 5, [⟨1, "snapshot", versionFile 1 true, "m1", "t1", none⟩]⟩ rfl

/-- C9: `revert` only rewrites the tracked file with the reconstructed
bytes — the repository directory is untouched, no record is appended — and
an immediate second `revert` of the same version returns the same world. -/
theorem C9_revert_noncommitting (tool : PatchTool) (w w' : World) (st : RepoState)
    (target : Int) (hmeta : w.sys.meta = some st)
    (hrev : revertOp tool w target = .ok w') :
    w'.sys = w.sys ∧
    reconstructBytes tool w.sys.blobs st.versions target = .ok w'.fileBytes ∧
    revertOp tool w' target = .ok w' := by
  simp only [revertOp, dvcsRevert] at hrev
  rw [hmeta] at hrev
  dsimp only at hrev
  cases hr : reconstructBytes tool w.sys.blobs st.versions target with
  | error e => rw [hr] at hrev; exact absurd hrev (by simp)
  | ok b =>
    rw [hr] at hrev
    dsimp only at hrev
    obtain rfl := Except.ok.inj hrev
    refine ⟨rfl, rfl, ?_⟩
    simp only [revertOp, dvcsRevert]
    rw [hmeta]
    dsimp only
    rw [hr]

/-- Witness for C9: reverting the delta version of a two-version
repository, twice. -/
theorem C9_revert_noncommitting_witness :
    (⟨[7], sampleDeltaWorld.sys⟩ : World).sys = sampleDeltaWorld.sys ∧
    reconstructBytes okTool sampleDeltaWorld.sys.blobs
      [⟨1, "snapshot", versionFile 1 true, "m1", "t1", none⟩,
       ⟨2, "delta", versionFile 2 false, "m2", "t2", some 1⟩] 2
      = .ok (⟨[7], sampleDeltaWorld.sys⟩ : World).fileBytes ∧
    revertOp okTool ⟨[7], sampleDeltaWorld.sys⟩ 2 = .ok ⟨[7], sampleDeltaWorld.sys⟩ :=
  C9_revert_noncommitting okTool sampleDeltaWorld ⟨[7], sampleDeltaWorld.sys⟩
    ⟨"docx", 5, [⟨1, "snapshot", versionFile 1 true, "m1", "t1", none⟩,
      ⟨2, "delta", versionFile 2 false, "m2", "t2", some 1⟩]⟩ 2 rfl (by rfl)

/-- C10: `add` reads the snapshot interval only from the loaded metadata —
two runs differing solely in the constructor's interval argument return
identical results. -/
theorem C10_interval_noninterference (tool : PatchTool) (docType : String)
    (k1 k2 : Nat) (w : World) (msg ts : String) :
    addOp tool docType k1 w msg ts = addOp tool docType k2 w msg ts := rfl

/-- Witness for the amended C7 at concrete documents. -/
theorem C7_load_contract_amended_witness :
    loadMeta (some (Json.str "zzz")) ≠ .absent ∧
    loadMeta (some (saveJson ⟨"pdf", 2, []⟩)) = .ok ⟨"pdf", 2, []⟩ :=
  ⟨C7_load_contract_amended.2.1 (Json.str "zzz"),
   C7_load_contract_amended.2.2.1 ⟨"pdf", 2, []⟩⟩
